import Mathlib

/-!
# Verification of gallery-dl's orchestration core (util.py, download.py)

A shallow embedding of the code in `src/gallery_dl/util.py` and
`src/gallery_dl/download.py`, together with theorems settling the claims
about range parsing/optimization, the range predicate, base-N
encoding/decoding, the template formatter, the path manager's skip logic,
the download archive, and the pipeline orchestrator's version check.

Python strings are modelled as `List Char`, Python integers as `Int`
(or `Nat` where the code only ever sees non-negative values), fallible
operations as `Except`/`Option`.  CPython builtins that are external to
the repository (`format`, `str.format_map`, `getattr`, the conversion
functions of the table in `Formatter.conversions`) are abstracted into a
`Builtins` record; a concrete sample instance `pyBuiltins` covering the
cases exercised by the spec's examples is provided for witnesses.
-/

set_option linter.unusedVariables false

/-- Python strings, modelled as a list of characters. -/
abbrev PyStr := List Char

/-! ## Python string primitives used by util.py -/

/-- ASCII whitespace recognised by Python's `str.strip` / `int()`. -/
def pyIsSpace (c : Char) : Bool :=
  c = ' ' || c = '\t' || c = '\n' || c = '\x0d' || c = '\x0b' || c = '\x0c'

/-- Python `str.strip()`: remove leading and trailing whitespace. -/
def pyStrip (s : PyStr) : PyStr :=
  ((s.dropWhile pyIsSpace).reverse.dropWhile pyIsSpace).reverse

def pyIsDigit (c : Char) : Bool := '0' ≤ c && c ≤ '9'

/-- Value of a string of decimal digits (most significant first). -/
def digitsToNat (ds : PyStr) : Nat :=
  ds.foldl (fun acc c => acc * 10 + (c.toNat - '0'.toNat)) 0

/-- Python `int(s)` on a string: strips whitespace, allows a single sign,
requires at least one digit; any other input raises `ValueError`, modelled
as `none`.  (Digit-group underscores of Python ≥ 3.6 are not modelled;
no claim involves them.) -/
def pyInt (s : PyStr) : Option Int :=
  match pyStrip s with
  | '-' :: ds => if ds ≠ [] && ds.all pyIsDigit then some (-(digitsToNat ds : Int)) else none
  | '+' :: ds => if ds ≠ [] && ds.all pyIsDigit then some (digitsToNat ds : Int) else none
  | ds => if ds ≠ [] && ds.all pyIsDigit then some (digitsToNat ds : Int) else none

/-- Python `str.split(sep)` for a one-character separator.
Note `"".split(",") = [""]`: the result is never empty. -/
def splitOnChar (sep : Char) : PyStr → List PyStr
  | [] => [[]]
  | c :: rest =>
    if c = sep then [] :: splitOnChar sep rest
    else
      match splitOnChar sep rest with
      | [] => [[c]]
      | g :: gs => (c :: g) :: gs

/-- Python `str.partition(sep)` for a one-character separator: the part
before the first occurrence, whether the separator occurred, and the part
after it. -/
def partitionChar (sep : Char) : PyStr → PyStr × Bool × PyStr
  | [] => ([], false, [])
  | c :: rest =>
    if c = sep then ([], true, rest)
    else
      let (f, b, l) := partitionChar sep rest
      (c :: f, b, l)

/-- CPython's `sys.maxsize` on a 64-bit platform. -/
def sysMaxsize : Int := 9223372036854775807

/-! ## util.py: parse_range (lines 24-45) -/

/-- One iteration of the `parse_range` loop body (util.py lines 33-43):
`group.partition("-")`, the `int()` conversions with their defaults
(absent lower bound → 1, absent upper bound → `sys.maxsize`),
`ValueError → group dropped` (`none`), and the final normalization
`(beg, end) if beg <= end else (end, beg)` of line 41. -/
def parseGroup (group : PyStr) : Option (Int × Int) :=
  let (first, sep, last) := partitionChar '-' group
  let be? : Option (Int × Int) :=
    if !sep then
      (pyInt first).map (fun n => (n, n))
    else
      let beg? := if pyStrip first = [] then some 1 else pyInt first
      let end? := if pyStrip last = [] then some sysMaxsize else pyInt last
      match beg?, end? with
      | some b, some e => some (b, e)
      | _, _ => none
  be?.map (fun be => if be.1 ≤ be.2 then be else (be.2, be.1))

/-- util.py `parse_range`: split the spec on `","` and keep the groups
that parse. -/
def parse_range (rangespec : PyStr) : List (Int × Int) :=
  (splitOnChar ',' rangespec).filterMap parseGroup

/-! ## util.py: optimize_range (lines 48-70) -/

/-- The ordering used by Python's `list.sort()` on pairs of integers
(lexicographic tuple comparison). -/
def rangeLE (a b : Int × Int) : Prop := a.1 < b.1 ∨ (a.1 = b.1 ∧ a.2 ≤ b.2)

instance : DecidableRel rangeLE := fun a b => by
  unfold rangeLE; infer_instance

instance : IsTotal (Int × Int) rangeLE :=
  ⟨fun a b => by unfold rangeLE; omega⟩

instance : IsTrans (Int × Int) rangeLE :=
  ⟨fun a b c hab hbc => by unfold rangeLE at *; omega⟩

/-- `ranges.sort()` of util.py line 58.  Python's sort is a stable sort
under the total lexicographic tuple order, hence extensionally equal to
insertion sort under `rangeLE`. -/
def sortRanges (l : List (Int × Int)) : List (Int × Int) :=
  List.insertionSort rangeLE l

/-- The merge loop of util.py lines 62-69, carrying the current
`(beg, end)` pair; the `result.append` calls become the emitted heads. -/
def mergeGo : Int × Int → List (Int × Int) → List (Int × Int)
  | (b, e), [] => [(b, e)]
  | (b, e), (lower, upper) :: rest =>
    if lower > e + 1 then (b, e) :: mergeGo (lower, upper) rest
    else if upper > e then mergeGo (b, upper) rest
    else mergeGo (b, e) rest

/-- util.py `optimize_range`: lists of length ≤ 1 are returned unchanged;
otherwise sort and merge overlapping or adjacent intervals. -/
def optimize_range (ranges : List (Int × Int)) : List (Int × Int) :=
  if ranges.length ≤ 1 then ranges
  else
    match sortRanges ranges with
    | [] => []
    | r :: rest => mergeGo r rest

/-! ## util.py: bencode / bdecode (lines 73-90), at the default decimal
alphabet -/

/-- The default alphabet `"0123456789"`. -/
def alphabetDigits : PyStr := ['0', '1', '2', '3', '4', '5', '6', '7', '8', '9']

/-- util.py `bencode` at the default alphabet: repeated `divmod(num, 10)`,
emitting `alphabet[remainder]`, most significant digit first.  The while
loop runs only while `num` is non-zero, so `bencode 0 = ""`. -/
def bencode (num : Nat) : PyStr :=
  if h : num = 0 then []
  else bencode (num / 10) ++ [alphabetDigits.getD (num % 10) '0']
decreasing_by exact Nat.div_lt_self (Nat.pos_of_ne_zero h) (by norm_num)

/-- The accumulator loop of util.py `bdecode`; `alphabet.index(c)` raises
`ValueError` on a character outside the alphabet, modelled as `none`. -/
def bdecodeGo (acc : Nat) : PyStr → Option Nat
  | [] => some acc
  | c :: cs =>
    match alphabetDigits.findIdx? (fun d => d == c) with
    | some i => bdecodeGo (acc * 10 + i) cs
    | none => none

/-- util.py `bdecode` at the default alphabet. -/
def bdecode (data : PyStr) : Option Nat := bdecodeGo 0 data

/-! ## Exceptions -/

/-- The exceptions reachable in the embedded fragment.  `stopExtraction`
is `exception.StopExtraction` (the cooperative stop signal); `exit` is
process termination via the `exit` builtin; `formatError` is
`exception.FormatError` tagged with which template failed; the rest model
the corresponding CPython exception types. -/
inductive Exc
  | stopExtraction
  | exit
  | formatError (which : PyStr)
  | valueError
  | keyError
  | indexError
  | typeError
  | attributeError (attr : PyStr)
  deriving DecidableEq, Repr

/-! ## util.py: RangePredicate (lines 186-205) -/

/-- The mutable state of a `RangePredicate`: the configured ranges, the
running index, and the `lower`/`upper` fields computed in `__init__`
(`ranges[0][0]` and `ranges[-1][1]`, or `0, 0` for an empty list). -/
structure RangePredicate where
  ranges : List (Int × Int)
  index : Int
  lower : Int
  upper : Int
  deriving DecidableEq, Repr

/-- `RangePredicate.__init__(ranges)`. -/
def RangePredicate.make (ranges : List (Int × Int)) : RangePredicate :=
  match ranges.head?, ranges.getLast? with
  | some r0, some rl => ⟨ranges, 0, r0.1, rl.2⟩
  | _, _ => ⟨ranges, 0, 0, 0⟩

/-- The membership loop of `__call__`: true iff some configured interval
contains `i`. -/
def rangesContain (rs : List (Int × Int)) (i : Int) : Bool :=
  rs.any (fun r => r.1 ≤ i && i ≤ r.2)

/-- `RangePredicate.__call__` (the `url`/`kwds` arguments are unused by
the source): increment the index, raise `StopExtraction` once it exceeds
`self.upper`, otherwise report interval membership.  (The source mutates
`self.index` before raising; the post-raise state is unobservable and the
error branch therefore drops it.) -/
def RangePredicate.call (p : RangePredicate) : Except Exc (Bool × RangePredicate) :=
  let p' : RangePredicate := { p with index := p.index + 1 }
  if p'.index > p'.upper then .error .stopExtraction
  else .ok (rangesContain p'.ranges p'.index, p')

/-- `n` successive calls of the predicate, collecting the returned
booleans; the first raise aborts the sequence. -/
def RangePredicate.runCalls (p : RangePredicate) : Nat → Except Exc (List Bool × RangePredicate)
  | 0 => .ok ([], p)
  | n + 1 => do
    let (b, p') ← p.call
    let (bs, p'') ← p'.runCalls n
    .ok (b :: bs, p'')

/-! ## Python values and keyword mappings -/

/-- The Python values flowing through the formatter: `None`, integers,
strings, lists and string-keyed dicts cover every value the embedded
fragment inspects. -/
inductive PyValue
  | none
  | int (n : Int)
  | str (s : PyStr)
  | list (xs : List PyValue)
  | dict (d : List (PyStr × PyValue))

/-- A Python keyword mapping (string-keyed dict), in insertion order. -/
abbrev KwDict := List (PyStr × PyValue)

/-- Dict lookup. -/
def dictGet (d : KwDict) (k : PyStr) : Option PyValue :=
  (d.find? (fun kv => kv.1 == k)).map (fun kv => kv.2)

/-- Dict assignment `d[k] = v`, preserving insertion order. -/
def dictSet (d : KwDict) (k : PyStr) (v : PyValue) : KwDict :=
  if d.any (fun kv => kv.1 == k) then
    d.map (fun kv => if kv.1 == k then (k, v) else kv)
  else d ++ [(k, v)]

/-- Python truthiness on the modelled values: `None`, `0`, and empty
containers are falsy. -/
def pyFalsy : PyValue → Bool
  | .none => true
  | .int n => n = 0
  | .str s => s.isEmpty
  | .list xs => xs.isEmpty
  | .dict d => d.isEmpty

/-- A concrete model of the CPython `str()` builtin on the values the
examples use (container renderings are abbreviated placeholders; no claim
renders a container). -/
def pyStrOf : PyValue → PyStr
  | .none => "None".data
  | .int n => (toString n).data
  | .str s => s
  | .list _ => "list".data
  | .dict _ => "dict".data

/-- The CPython builtins the formatter calls but which are external to the
repository: `getattr`, the builtin `format(value, spec)`, `str.format_map`
(applied to a format spec), the implementations behind the
`Formatter.conversions` table, and `str()`. -/
structure Builtins where
  getattr : PyValue → PyStr → Except Exc PyValue
  format : PyValue → PyStr → Except Exc PyStr
  formatMap : PyStr → KwDict → Except Exc PyStr
  convImpl : Char → PyValue → Except Exc PyValue
  pstr : PyValue → PyStr

/-! ## util.py: Formatter (lines 265-354) -/

/-- The keys of the `Formatter.conversions` table (util.py lines 288-297). -/
def conversionKeys : List Char := ['l', 'u', 'c', 'C', 'U', 's', 'r', 'a']

/-- `self.conversions[conversion]`: a `KeyError` for a character outside
the table, otherwise the (external) conversion function. -/
def conversions (B : Builtins) (c : Char) : Except Exc (PyValue → Except Exc PyValue) :=
  if conversionKeys.contains c then .ok (B.convImpl c) else .error .keyError

/-- Python `s.split("/", 2)` destructured into exactly three parts, as in
`before, after, format_spec = format_spec.split("/", 2)`: `none` when the
string holds fewer than two slashes (an unpacking `ValueError`). -/
def splitSlash2 (s : PyStr) : Option (PyStr × PyStr × PyStr) :=
  let (a, f1, rest1) := partitionChar '/' s
  if !f1 then Option.none
  else
    let (b, f2, rest2) := partitionChar '/' rest1
    if !f2 then Option.none else some (a, b, rest2)

/-- util.py `Formatter.format_field` (lines 326-334), parameterized by the
external builtin `format`: a spec starting with `"?"` first tests
truthiness (falsy → empty string), then splits off `<before>` (with its
leading `"?"` dropped) and `<after>`; `format_spec[0]` on an empty spec is
an `IndexError`. -/
def format_field (fmt : PyValue → PyStr → Except Exc PyStr) (value : PyValue)
    (format_spec : PyStr) : Except Exc PyStr :=
  match format_spec with
  | [] => .error .indexError
  | c :: _ =>
    if c = '?' then
      if pyFalsy value then .ok []
      else
        match splitSlash2 format_spec with
        | some (before, after, rest) =>
          (fmt value rest).map (fun s => before.drop 1 ++ s ++ after)
        | Option.none => .error .valueError
    else fmt value format_spec

/-- An index inside a replacement field: `_string.formatter_field_name_split`
yields an `int` for an all-digit key and the raw string otherwise. -/
inductive FieldIndex
  | str (s : PyStr)
  | int (n : Int)

/-- One accessor of a replacement field's name: attribute (`.a`) or
subscript (`[k]`). -/
inductive FieldAccess
  | attr (name : PyStr)
  | index (i : FieldIndex)

/-- A replacement field's name, as split by the external builtin
`_string.formatter_field_name_split`: first segment plus trailing
accessors. -/
structure FieldName where
  first : PyStr
  rest : List FieldAccess

/-- Python slice-index normalization for a length-`len` sequence:
negative indices count from the end, and both ends clamp. -/
def sliceIdx (len : Nat) (i : Int) : Nat :=
  if i < 0 then (max 0 ((len : Int) + i)).toNat else (min i (len : Int)).toNat

/-- Python `obj[start:stop]` / `obj[start:]` for the modelled values;
non-sequences raise `TypeError`. -/
def pySliceVal (obj : PyValue) (start : Int) (stop? : Option Int) : Except Exc PyValue :=
  match obj with
  | .str s =>
    let a := sliceIdx s.length start
    let b := match stop? with
      | some st => sliceIdx s.length st
      | Option.none => s.length
    .ok (.str ((s.drop a).take (b - a)))
  | .list xs =>
    let a := sliceIdx xs.length start
    let b := match stop? with
      | some st => sliceIdx xs.length st
      | Option.none => xs.length
    .ok (.list ((xs.drop a).take (b - a)))
  | _ => .error .typeError

/-- Python `obj[k]` for a string key: dict lookup (`KeyError` when
absent); any other receiver raises `TypeError`. -/
def pyGetItemStr (obj : PyValue) (k : PyStr) : Except Exc PyValue :=
  match obj with
  | .dict d =>
    match dictGet d k with
    | some v => .ok v
    | Option.none => .error .keyError
  | _ => .error .typeError

/-- The accessor loop of `Formatter.get_field` (util.py lines 344-352).
For an integer subscript the source evaluates `":" in i` on an `int`,
which raises `TypeError`.  A string subscript containing `":"` is a slice
and the source `return`s it immediately, dropping any remaining
accessors; `int(start)`/`int(stop)` may raise `ValueError`. -/
def getFieldGo (B : Builtins) : PyValue → List FieldAccess → Except Exc PyValue
  | obj, [] => .ok obj
  | obj, .attr a :: rest => do getFieldGo B (← B.getattr obj a) rest
  | obj, .index (.int _) :: _ => .error .typeError
  | obj, .index (.str s) :: rest =>
    if s.contains ':' then
      let (start, _, stop) := partitionChar ':' s
      let a? : Option Int := if start ≠ [] then pyInt start else some 0
      match a? with
      | Option.none => .error .valueError
      | some a =>
        if stop ≠ [] then
          match pyInt stop with
          | Option.none => .error .valueError
          | some b => pySliceVal obj a (some b)
        else pySliceVal obj a Option.none
    else do getFieldGo B (← pyGetItemStr obj s) rest

/-- util.py `Formatter.get_field` (lines 336-354): a missing top-level key
immediately returns the formatter's configured default (`self.kwdefault`)
without touching the remaining accessors. -/
def get_field (B : Builtins) (f : FieldName) (kwargs : KwDict) (kwdefault : PyValue) :
    Except Exc PyValue :=
  match dictGet kwargs f.first with
  | Option.none => .ok kwdefault
  | some obj => getFieldGo B obj f.rest

/-- One parsed replacement field, as produced by the external builtin
`_string.formatter_parser`: name, optional conversion character, format
spec (`""` when no `:` is present, which the source treats as absent). -/
structure TField where
  name : FieldName
  conversion : Option Char
  spec : PyStr

/-- One parsed template element: a literal run and an optional field.
`field = none` models `field_name is None`. -/
structure TemplateItem where
  literal : PyStr
  field : Option TField

/-- A compiled template: the ordered output of `_string.formatter_parser`. -/
abbrev Template := List TemplateItem

/-- The `if field_name:` truthiness test of util.py line 313 on the
already-split name: the raw name `""` is falsy. -/
def fieldNameTruthy (f : FieldName) : Bool :=
  !(f.first.isEmpty && f.rest.isEmpty)

/-- Rendering of one replacement field inside `Formatter.vformat`
(util.py lines 314-321): `get_field`, optional conversion via the
`conversions` table, then either `format_field` on the spec (itself first
passed through `str.format_map`) or plain `str`. -/
def vformatItem (B : Builtins) (kwargs : KwDict) (kwdefault : PyValue) (f : TField) :
    Except Exc PyStr := do
  let obj ← get_field B f.name kwargs kwdefault
  let obj ← match f.conversion with
    | some c => do
      let convert ← conversions B c
      convert obj
    | Option.none => pure obj
  if f.spec ≠ [] then
    let spec ← B.formatMap f.spec kwargs
    format_field B.format obj spec
  else
    pure (B.pstr obj)

/-- The result-append loop of `Formatter.vformat` (util.py lines 302-324)
over a compiled template.  (Appending an empty literal is the identity,
so the `if literal_text:` guard needs no separate branch.) -/
def vformatGo (B : Builtins) (kwargs : KwDict) (kwdefault : PyValue) :
    Template → Except Exc PyStr
  | [] => .ok []
  | item :: rest => do
    let head ← match item.field with
      | some f =>
        if fieldNameTruthy f.name then vformatItem B kwargs kwdefault f else pure []
      | Option.none => pure ([] : PyStr)
    let tail ← vformatGo B kwargs kwdefault rest
    .ok (item.literal ++ head ++ tail)

/-- util.py `Formatter.vformat`: the formatter object is represented by
its configured default value `kwdefault` (util.py lines 299-300). -/
def vformat (B : Builtins) (tpl : Template) (kwargs : KwDict) (kwdefault : PyValue) :
    Except Exc PyStr :=
  vformatGo B kwargs kwdefault tpl

/-- `Except` success as a boolean (for binder-free statements). -/
def exceptOk {ε α : Type} : Except ε α → Bool
  | .ok _ => true
  | .error _ => false

/-! ## A concrete sample of the external builtins -/

/-- A concrete model of the builtin `format(value, spec)` covering the
empty spec (which CPython defines as `str(value)`) — the only spec the
spec's examples reach; other specs are represented conservatively as
errors. -/
def pyFormat (v : PyValue) (spec : PyStr) : Except Exc PyStr :=
  if spec.isEmpty then .ok (pyStrOf v) else .error .valueError

/-- A concrete model of the conversion implementations behind the
`Formatter.conversions` table, covering the cases the examples use. -/
def pyConvImpl (c : Char) (v : PyValue) : Except Exc PyValue :=
  match c, v with
  | 's', v => .ok (.str (pyStrOf v))
  | 'l', .str s => .ok (.str (s.map Char.toLower))
  | 'u', .str s => .ok (.str (s.map Char.toUpper))
  | _, _ => .error .typeError

/-- A concrete `Builtins` instance used by witnesses: `str.format_map` is
the identity on a spec without replacement fields (no brace characters). -/
def pyBuiltins : Builtins where
  getattr := fun _ a => .error (.attributeError a)
  format := pyFormat
  formatMap := fun spec kwargs =>
    if spec.contains '\x7b' || spec.contains '\x7d' then .error .keyError
    else .ok spec
  convImpl := pyConvImpl
  pstr := pyStrOf

/-! ## util.py: DownloadArchive (lines 503-526) -/

/-- The observable state of a `DownloadArchive`: the key generator
`(category + archive-format).format_map` built in `__init__` (an external
`str.format_map` closure, abstracted as a function), and the set of keys
in the backing `archive` table, which has a single primary-key column
(kept as an insertion-ordered duplicate-free list). -/
structure DownloadArchive where
  keygen : KwDict → PyStr
  entries : List PyStr

/-- `DownloadArchive.check`: `SELECT 1 FROM archive WHERE entry=?` — true
iff the rendered key is present. -/
def DownloadArchive.check (a : DownloadArchive) (kwdict : KwDict) : Bool :=
  a.entries.contains (a.keygen kwdict)

/-- `DownloadArchive.add`: `INSERT OR IGNORE INTO archive VALUES (?)` —
a duplicate of the primary key leaves the table unchanged. -/
def DownloadArchive.add (a : DownloadArchive) (kwdict : KwDict) : DownloadArchive :=
  if a.entries.contains (a.keygen kwdict) then a
  else { a with entries := a.entries ++ [a.keygen kwdict] }

/-- An archive built by a sequence of `add` calls on a fresh store. -/
def archiveOf (g : KwDict → PyStr) (ks : List KwDict) : DownloadArchive :=
  ks.foldl DownloadArchive.add ⟨g, []⟩

/-! ## util.py: PathFormat (lines 357-500) -/

/-- Modelled from the spec: `text.clean_path` (the `text` module is not
under src/) — "sanitize each rendered segment to strip characters illegal
in a path component (preventing an injected separator from escaping its
segment)".  Modelled as dropping separator and reserved characters. -/
def clean_path (s : PyStr) : PyStr :=
  s.filter (fun c =>
    !(c = '/' || c = '\\' || c = ':' || c = '*' || c = '?' || c = '<' || c = '>' || c = '|'))

/-- The `PathFormat` state fields touched by the embedded methods
(`build_path`, `set_extension`, `exists`).  `skipEnabled`/`skipexc`
encode the `skip` configuration read in `__init__` (util.py lines
378-387): `skip = False` replaces `exists` by a constant-`False` lambda;
`"abort"` raises `StopExtraction`; `"exit"` calls `exit`; the default is
a plain skip (no exception). -/
structure PathFormat where
  filename_fmt : Template
  kwdefault : PyValue
  keywords : KwDict
  has_extension : Bool
  filename : PyStr
  directory : PyStr
  realdirectory : PyStr
  path : PyStr
  realpath : PyStr
  temppath : PyStr
  skipEnabled : Bool
  skipexc : Option Exc

/-- util.py `PathFormat.build_path` (lines 444-456): render the filename
template (failures wrapped into `FormatError("filename")`), sanitize it,
join with `os.sep` (posix `"/"`; the `os.name == "nt"` rewriting of
`adjust_path` is the identity here), and initialize `temppath` on first
build. -/
def PathFormat.build_path (B : Builtins) (st : PathFormat) : Except Exc PathFormat :=
  match vformat B st.filename_fmt st.keywords st.kwdefault with
  | .error _ => .error (.formatError ("filename".data))
  | .ok rendered =>
    let filename := clean_path rendered
    let path := st.directory ++ '/' :: filename
    let realpath := st.realdirectory ++ '/' :: filename
    .ok { st with
      filename := filename
      path := path
      realpath := realpath
      temppath := if st.temppath.isEmpty then realpath else st.temppath }

/-- util.py `PathFormat.set_extension` (lines 438-442). -/
def PathFormat.set_extension (B : Builtins) (st : PathFormat) (extension : PyStr)
    (real : Bool) : Except Exc PathFormat :=
  PathFormat.build_path B
    { st with
      has_extension := real
      keywords := dictSet st.keywords ("extension".data) (.str extension) }

/-- The archive part of the `exists` condition of util.py line 396:
`archive and archive.check(self.keywords)` — a falsy (absent) archive
short-circuits to false. -/
def archiveHit (archive : Option DownloadArchive) (kw : KwDict) : Bool :=
  match archive with
  | some a => a.check kw
  | Option.none => false

/-- util.py `PathFormat.exists` (lines 393-404), with the filesystem
abstracted as the predicate `fs`.  The disk test is guarded by
`self.has_extension`; an archive hit requires a truthy `archive` argument;
a hit raises the configured skip exception if any; a hit with the
extension still unknown retroactively rebuilds the path with an empty
extension and strips a trailing `"."` (`self.path[-1]` on an empty path
is an `IndexError`). -/
def PathFormat.exists (B : Builtins) (fs : PyStr → Bool) (st : PathFormat)
    (archive : Option DownloadArchive) : Except Exc (Bool × PathFormat) :=
  if !st.skipEnabled then .ok (false, st)
  else if (st.has_extension && fs st.realpath) || archiveHit archive st.keywords then
    match st.skipexc with
    | some e => .error e
    | Option.none =>
      if st.has_extension then .ok (true, st)
      else
        match PathFormat.set_extension B st [] true with
        | .error e => .error e
        | .ok st' =>
          match st'.path.getLast? with
          | Option.none => .error .indexError
          | some c =>
            if c = '.' then .ok (true, { st' with path := st'.path.dropLast })
            else .ok (true, st')
  else .ok (false, st)

/-! ## download.py: DownloadJob.run (lines 62-85) -/

/-- The message variants of the extractor protocol
(`Message.Url/Headers/Cookies/Directory/Version`). -/
inductive Message
  | url (u : PyStr) (metadata : KwDict)
  | headers (m : KwDict)
  | cookies (m : KwDict)
  | directory (keywords : KwDict)
  | version (v : Int)

/-- How a job run can fail.  `unsupportedVersion` is the structured error
the spec's error model calls for; `attributeError` models the CPython
`AttributeError` actually reached by the source (attribute access on a
plain dict). -/
inductive JobError
  | attributeError (objType attr : PyStr)
  | typeError (msg : PyStr)
  | unsupportedVersion (category : PyStr) (v : Int)
  deriving Repr

/-- The observable side effects of the dispatch loop, one per message
kind (download attempt, header/cookie forwarding, directory switch). -/
inductive JobEffect
  | download (u : PyStr) (metadata : KwDict)
  | setHeaders (m : KwDict)
  | setCookies (m : KwDict)
  | setDirectory (keywords : KwDict)

/-- The message dispatch loop of download.py `DownloadJob.run` (lines
67-85), with the delegated I/O of the non-`Version` branches recorded as
effects.  In the `Version` branch with `msg[1] != 1` the source evaluates
`self.info.category` — but `self.info` is the module's plain `info` dict
(cf. `self.info["category"]` in `__init__`), so attribute access raises
`AttributeError` before the `raise` statement (whose argument, a `str`,
would itself be rejected by Python 3 with a `TypeError`) can run. -/
def DownloadJob.runMsgs : List Message → Except JobError (List JobEffect)
  | [] => .ok []
  | msg :: rest =>
    match msg with
    | .url u md => (DownloadJob.runMsgs rest).map (fun es => .download u md :: es)
    | .headers m => (DownloadJob.runMsgs rest).map (fun es => .setHeaders m :: es)
    | .cookies m => (DownloadJob.runMsgs rest).map (fun es => .setCookies m :: es)
    | .directory kw => (DownloadJob.runMsgs rest).map (fun es => .setDirectory kw :: es)
    | .version v =>
      if v ≠ 1 then .error (.attributeError ("dict".data) ("category".data))
      else DownloadJob.runMsgs rest

/-! ## Vocabulary for the claim statements -/

/-- All intervals of a list are well-formed (lower ≤ upper), i.e. are
genuine closed integer intervals. -/
def wfRanges (l : List (Int × Int)) : Prop := ∀ r ∈ l, r.1 ≤ r.2

instance : DecidablePred wfRanges := fun l => by unfold wfRanges; infer_instance

/-- `n` is covered by some interval of the list. -/
def covers (rs : List (Int × Int)) (n : Int) : Prop := ∃ r ∈ rs, r.1 ≤ n ∧ n ≤ r.2

instance (rs : List (Int × Int)) (n : Int) : Decidable (covers rs n) := by
  unfold covers; infer_instance

/-- Two interval lists cover exactly the same set of integers. -/
def coversSame (a b : List (Int × Int)) : Prop := ∀ n : Int, covers a n ↔ covers b n

/-- Consecutive intervals are disjoint and non-adjacent (gap ≥ 2), which
also forces strictly increasing order; together with `coversSame` this is
the canonical minimal disjoint representation. -/
def gapSeparated (l : List (Int × Int)) : Prop :=
  List.Chain' (fun x y : Int × Int => x.2 + 1 < y.1) l

/-- The specification `optimize_range` is claimed to satisfy on an input:
same coverage, merged/sorted minimal disjoint output, well-formed output. -/
def OptimizeSpec (input : List (Int × Int)) : Prop :=
  coversSame (optimize_range input) input ∧
  gapSeparated (optimize_range input) ∧
  wfRanges (optimize_range input)

/-- A base-restricted string over the decimal alphabet. -/
def validDigits (s : PyStr) : Prop := ∀ c ∈ s, c ∈ alphabetDigits

instance : DecidablePred validDigits := fun s => by unfold validDigits; infer_instance

/-- A canonical decimal encoding: base-restricted and without a leading
`'0'` (the empty string, `bencode 0`, is canonical). -/
def canonicalDigits (s : PyStr) : Prop := validDigits s ∧ s.head? ≠ some '0'

instance : DecidablePred canonicalDigits := fun s => by unfold canonicalDigits; infer_instance

/-- A template item that is a pure literal or a plain `{key}` field
relative to `kwargs`: no conversion, no format spec, and no trailing
accessors unless the top-level key is absent. -/
def plainItem (kwargs : KwDict) (item : TemplateItem) : Bool :=
  match item.field with
  | Option.none => true
  | some f =>
    f.conversion.isNone && f.spec.isEmpty &&
      (f.name.rest.isEmpty || (dictGet kwargs f.name.first).isNone)

/-- The filename template of the state renders successfully with an empty
extension and yields a non-empty path (the normal situation for any real
configuration, under which `PathFormat.exists` cannot fail). -/
def rebuildOk (B : Builtins) (st : PathFormat) : Bool :=
  match PathFormat.set_extension B st [] true with
  | .ok st2 => !st2.path.isEmpty
  | .error _ => false

/-- `PathFormat.exists` returns `b` without raising (for some successor
state). -/
def existsReturns (B : Builtins) (fs : PyStr → Bool) (st : PathFormat)
    (archive : Option DownloadArchive) (b : Bool) : Prop :=
  ∃ st', PathFormat.exists B fs st archive = .ok (b, st')

/-- A keyword-independent key generator, used by the archive witness. -/
def demoKeygen : KwDict → PyStr := fun _ => "x".data

/-- A `PathFormat` state whose extension is not yet known while its real
path does exist on disk (counterexample state for the `exists` claim). -/
def pathStateNoExt : PathFormat where
  filename_fmt := []
  kwdefault := PyValue.none
  keywords := []
  has_extension := false
  filename := []
  directory := []
  realdirectory := []
  path := "p".data
  realpath := "f".data
  temppath := []
  skipEnabled := true
  skipexc := Option.none

/-- A fully-built `PathFormat` state with known extension and a
literal-only filename template (witness state). -/
def pathStateExt : PathFormat where
  filename_fmt := [⟨"f".data, Option.none⟩]
  kwdefault := PyValue.none
  keywords := []
  has_extension := true
  filename := "f".data
  directory := "d".data
  realdirectory := "d".data
  path := "d/f".data
  realpath := "d/f".data
  temppath := "d/f".data
  skipEnabled := true
  skipexc := Option.none

/-! ## Helper lemmas -/

theorem splitOnChar_ne_nil (sep : Char) (s : PyStr) : splitOnChar sep s ≠ [] := by
  cases s with
  | nil => simp [splitOnChar]
  | cons c rest =>
    unfold splitOnChar
    by_cases h : c = sep
    · simp [h]
    · simp only [h, if_false]
      cases splitOnChar sep rest <;> simp

theorem splitOnChar_append (sep : Char) (g t : PyStr) (h : g.contains sep = false) :
    splitOnChar sep (g ++ sep :: t) = g :: splitOnChar sep t := by
  induction g with
  | nil => simp [splitOnChar]
  | cons c g ih =>
    have hc : (sep == c) = false ∧ g.contains sep = false := by
      simpa [List.contains, List.elem_cons] using h
    have hcs : ¬(c = sep) := by
      intro hcc
      subst hcc
      simp at hc
    rw [List.cons_append]
    conv_lhs => rw [splitOnChar]
    rw [if_neg hcs, ih hc.2]

theorem partitionChar_append (sep : Char) (xs ys : PyStr) (h : xs.contains sep = false) :
    partitionChar sep (xs ++ sep :: ys) = (xs, true, ys) := by
  induction xs with
  | nil => simp [partitionChar]
  | cons c xs ih =>
    have hc : (sep == c) = false ∧ xs.contains sep = false := by
      simpa [List.contains, List.elem_cons] using h
    have hcs : ¬(c = sep) := by
      intro hcc
      subst hcc
      simp at hc
    rw [List.cons_append]
    unfold partitionChar
    rw [if_neg hcs, ih hc.2]

theorem parseGroup_wf (g : PyStr) (r : Int × Int) (h : parseGroup g = some r) :
    r.1 ≤ r.2 := by
  rw [parseGroup] at h
  obtain ⟨be, -, hswap⟩ := Option.map_eq_some'.mp h
  by_cases hle : be.1 ≤ be.2
  · rw [if_pos hle] at hswap
    subst hswap
    exact hle
  · rw [if_neg hle] at hswap
    subst hswap
    show be.2 ≤ be.1
    omega

/-! ## Claim theorems -/

/-- Claim C1 (code_bug evidence): on a `Version` message with value ≠ 1
the dispatch loop of `DownloadJob.run` does not produce the structured
unsupported-version error the spec requires — it raises an
`AttributeError` (attribute access `self.info.category` on a plain dict,
reached before the `raise` of a bare string, itself illegal in Python 3,
could even execute).  A `Version(1)` message is accepted and processing
continues normally. -/
theorem version_check_raises_attribute_error :
    DownloadJob.runMsgs [Message.version 2] =
      .error (JobError.attributeError ("dict".data) ("category".data)) ∧
    DownloadJob.runMsgs [Message.version 0] =
      .error (JobError.attributeError ("dict".data) ("category".data)) ∧
    DownloadJob.runMsgs [Message.version 1, Message.url ("http://a/b".data) []] =
      .ok [JobEffect.download ("http://a/b".data) []] :=
  ⟨rfl, rfl, rfl⟩

/-- Claim C5: `parse_range` splits on commas; a group maps to a closed
interval with an absent lower bound defaulting to 1 and an absent upper
bound defaulting to `sys.maxsize`; malformed groups are dropped silently;
and the spec's two example inputs evaluate exactly as stated. -/
theorem parse_range_spec :
    parse_range ("-2,4,6-8,10-".data) = [(1, 2), (4, 4), (6, 8), (10, sysMaxsize)] ∧
    parse_range (" - 3 , 4-  4, 2-6".data) = [(1, 3), (4, 4), (2, 6)] ∧
    parse_range ("1,foo,3-".data) = [(1, 1), (3, sysMaxsize)] ∧
    (∀ g t : PyStr, g.contains ',' = false →
      parse_range (g ++ ',' :: t) = (parseGroup g).toList ++ parse_range t) := by
  refine ⟨by decide, by decide, by decide, ?_⟩
  intro g t h
  unfold parse_range
  rw [splitOnChar_append ',' g t h, List.filterMap_cons]
  cases hg : parseGroup g <;> simp [hg]

/-- Witness for the hypothesis of `parse_range_spec` (the comma-splitting
part at a concrete group and tail). -/
theorem parse_range_spec_witness :
    ("2".data).contains ',' = false ∧
    parse_range ("2".data ++ ',' :: "5".data) =
      (parseGroup ("2".data)).toList ++ parse_range ("5".data) :=
  ⟨by decide, parse_range_spec.2.2.2 ("2".data) ("5".data) (by decide)⟩

/-- Claim C10: every interval produced by `parse_range` is normalized to
lower ≤ upper (util.py line 41 swaps a reversed pair), and the reversed
group `"8-3"` is parsed — not dropped — as `(3, 8)`. -/
theorem parse_range_normalized :
    parse_range ("8-3".data) = [(3, 8)] ∧
    (∀ (s : PyStr) (r : Int × Int), r ∈ parse_range s → r.1 ≤ r.2) := by
  refine ⟨by decide, ?_⟩
  intro s r hr
  unfold parse_range at hr
  rw [List.mem_filterMap] at hr
  obtain ⟨g, _, hg⟩ := hr
  exact parseGroup_wf g r hg

/-- Witness for the hypothesis of `parse_range_normalized` (membership at
a concrete parse). -/
theorem parse_range_normalized_witness :
    ((3, 8) : Int × Int) ∈ parse_range ("8-3".data) ∧ ((3 : Int) ≤ 8) :=
  ⟨by decide, parse_range_normalized.2 ("8-3".data) (3, 8) (by decide)⟩

/-- The boolean results of the first `n` calls, as a function of the
starting index. -/
def callResults (rs : List (Int × Int)) (start : Int) (n : Nat) : List Bool :=
  (List.range n).map (fun (j : Nat) => rangesContain rs (start + (j : Int) + 1))

theorem callResults_succ (rs : List (Int × Int)) (start : Int) (n : Nat) :
    callResults rs start (n + 1) =
      rangesContain rs (start + 1) :: callResults rs (start + 1) n := by
  unfold callResults
  rw [List.range_succ_eq_map, List.map_cons, List.map_map]
  refine congrArg₂ _ (by norm_num) (List.map_congr_left ?_)
  intro j hj
  show rangesContain rs (start + ((j + 1 : Nat) : Int) + 1) =
    rangesContain rs (start + 1 + (j : Int) + 1)
  push_cast
  ring_nf

theorem runCalls_charact (n : Nat) : ∀ (p : RangePredicate),
    p.runCalls n =
      if p.index + (n : Int) ≤ p.upper then
        .ok (callResults p.ranges p.index n, { p with index := p.index + (n : Int) })
      else if n = 0 then .ok ([], p)
      else .error .stopExtraction := by
  induction n with
  | zero =>
    intro p
    simp [RangePredicate.runCalls, callResults]
  | succ n ih =>
    intro p
    show (do
      let (b, p') ← p.call
      let (bs, p'') ← p'.runCalls n
      (.ok (b :: bs, p'') : Except Exc (List Bool × RangePredicate))) = _
    unfold RangePredicate.call
    by_cases h1 : p.index + 1 > p.upper
    · rw [if_pos h1]
      have hcond : ¬(p.index + ((n : Nat) + 1 : Int) ≤ p.upper) := by omega
      rw [show ((n + 1 : Nat) : Int) = ((n : Nat) + 1 : Int) by push_cast; ring]
      rw [if_neg hcond, if_neg (by omega : ¬(n + 1 = 0))]
      rfl
    · rw [if_neg h1]
      show (do
        let (bs, p'') ← RangePredicate.runCalls { p with index := p.index + 1 } n
        (.ok (rangesContain p.ranges (p.index + 1) :: bs, p'') :
          Except Exc (List Bool × RangePredicate))) = _
      rw [ih { p with index := p.index + 1 }]
      rw [show ((n + 1 : Nat) : Int) = ((n : Nat) + 1 : Int) by push_cast; ring]
      by_cases h2 : p.index + 1 + (n : Int) ≤ p.upper
      · rw [if_pos h2]
        have hcond : p.index + ((n : Int) + 1) ≤ p.upper := by omega
        rw [if_pos hcond]
        show Except.ok (_, _) = Except.ok (_, _)
        refine congrArg _ (Prod.ext ?_ ?_)
        · show rangesContain p.ranges (p.index + 1) :: callResults p.ranges (p.index + 1) n =
            callResults p.ranges p.index (n + 1)
          rw [callResults_succ]
        · show ({ p with index := p.index + 1 + (n : Int) } : RangePredicate) =
            { p with index := p.index + ((n : Int) + 1) }
          have harith : p.index + 1 + (n : Int) = p.index + ((n : Int) + 1) := by ring
          rw [harith]
      · rw [if_neg h2]
        rw [if_neg (by omega : ¬(n = 0))]
        have hcond : ¬(p.index + ((n : Int) + 1) ≤ p.upper) := by omega
        rw [if_neg hcond, if_neg (by omega : ¬(n + 1 = 0))]
        rfl

/-- Claim C3 (counterexample): over the configured — unsorted — intervals
`[(2,10),(3,4)]`, index 5 lies inside the configured interval `(2,10)`
and therefore does not exceed the maximum upper bound (10), so by the
claim the 5th call must return true; the code instead raises
`StopExtraction`, because `__init__` takes `upper` from the *last*
interval (`ranges[-1][1] = 4`), not the maximum. -/
theorem range_predicate_counterexample :
    (∃ r ∈ [((2 : Int), (10 : Int)), (3, 4)], r.1 ≤ 5 ∧ 5 ≤ r.2) ∧
    RangePredicate.runCalls (.make [(2, 10), (3, 4)]) 5 = .error .stopExtraction :=
  ⟨by decide, rfl⟩

/-- Claim C3 (amended): each successive call increments a 1-based running
index; the n-th call returns true iff index n lies in some configured
interval, and the run raises the cooperative stop signal exactly when the
index exceeds the predicate's `upper` bound — the upper bound of the
*last* configured interval (`ranges[-1][1]`, which equals the maximum
upper bound whenever the intervals are sorted, e.g. the output of
`optimize_range`), or 0 for an empty configuration.  The spec's example
over `[(2,4)]` behaves exactly as claimed. -/
theorem range_predicate_amended :
    (∀ (ranges : List (Int × Int)) (n : Nat),
      RangePredicate.runCalls (.make ranges) n =
        if (n : Int) ≤ (RangePredicate.make ranges).upper then
          .ok (callResults ranges 0 n,
               { RangePredicate.make ranges with index := (n : Int) })
        else if n = 0 then .ok ([], .make ranges)
        else .error .stopExtraction) ∧
    RangePredicate.runCalls (.make [(2, 4)]) 4 =
      .ok ([false, true, true, true], ⟨[(2, 4)], 4, 2, 4⟩) ∧
    RangePredicate.runCalls (.make [(2, 4)]) 5 = .error .stopExtraction := by
  refine ⟨?_, rfl, rfl⟩
  intro ranges n
  have hidx : (RangePredicate.make ranges).index = 0 := by
    unfold RangePredicate.make
    rcases ranges.head? with _ | r0 <;> rcases ranges.getLast? with _ | rl <;> rfl
  have hrng : (RangePredicate.make ranges).ranges = ranges := by
    unfold RangePredicate.make
    rcases ranges.head? with _ | r0 <;> rcases ranges.getLast? with _ | rl <;> rfl
  rw [runCalls_charact n (RangePredicate.make ranges)]
  simp only [hidx, hrng, zero_add]

theorem contains_false_iff {α : Type} [BEq α] [LawfulBEq α] (l : List α) (a : α) :
    l.contains a = false ↔ a ∉ l := by
  rw [← Bool.not_eq_true]
  exact not_congr List.elem_iff

theorem add_keygen (a : DownloadArchive) (k : KwDict) : (a.add k).keygen = a.keygen := by
  unfold DownloadArchive.add
  split <;> rfl

theorem add_entries_mem (a : DownloadArchive) (k : KwDict) (x : PyStr)
    (hx : x ∈ (a.add k).entries) : x ∈ a.entries ∨ x = a.keygen k := by
  unfold DownloadArchive.add at hx
  by_cases h : a.entries.contains (a.keygen k) = true
  · rw [if_pos h] at hx
    exact Or.inl hx
  · rw [if_neg h] at hx
    simp only [List.mem_append, List.mem_singleton] at hx
    exact hx

theorem foldl_add_entries_mem (ks : List KwDict) : ∀ (a : DownloadArchive) (x : PyStr),
    x ∈ (ks.foldl DownloadArchive.add a).entries →
    x ∈ a.entries ∨ x ∈ ks.map a.keygen := by
  induction ks with
  | nil =>
    intro a x hx
    exact Or.inl hx
  | cons k ks ih =>
    intro a x hx
    rw [List.foldl_cons] at hx
    rcases ih (a.add k) x hx with h | h
    · rcases add_entries_mem a k x h with h' | h'
      · exact Or.inl h'
      · refine Or.inr ?_
        subst h'
        exact List.mem_map_of_mem _ (List.mem_cons_self k ks)
    · rw [add_keygen] at h
      refine Or.inr ?_
      rw [List.map_cons]
      exact List.mem_cons_of_mem _ h

theorem foldl_add_keygen (ks : List KwDict) : ∀ (a : DownloadArchive),
    (ks.foldl DownloadArchive.add a).keygen = a.keygen := by
  induction ks with
  | nil => intro a; rfl
  | cons k ks ih =>
    intro a
    rw [List.foldl_cons, ih, add_keygen]

theorem check_add_self (a : DownloadArchive) (k : KwDict) : (a.add k).check k = true := by
  unfold DownloadArchive.check DownloadArchive.add
  by_cases h : a.entries.contains (a.keygen k) = true
  · rw [if_pos h]
    exact h
  · rw [if_neg h]
    show List.contains _ _ = true
    rw [List.contains, List.elem_iff]
    simp

/-- Claim C9: after `add(k)`, `check(k)` is true; `add` is idempotent (a
duplicate insert is a no-op — in particular it raises no error and leaves
exactly one logical entry, since `add` never duplicates an existing key);
and `check(k)` is false on any archive built purely from `add` calls none
of which rendered `k`'s key. -/
theorem archive_add_check :
    (∀ (a : DownloadArchive) (k : KwDict), (a.add k).check k = true) ∧
    (∀ (a : DownloadArchive) (k : KwDict), (a.add k).add k = a.add k) ∧
    (∀ (g : KwDict → PyStr) (ks : List KwDict) (k : KwDict),
      (ks.map g).contains (g k) = false → (archiveOf g ks).check k = false) := by
  refine ⟨check_add_self, ?_, ?_⟩
  · intro a k
    by_cases h : a.entries.contains (a.keygen k) = true
    · have ha : a.add k = a := by
        unfold DownloadArchive.add
        rw [if_pos h]
      rw [ha]
      exact ha
    · have ha : a.add k = ⟨a.keygen, a.entries ++ [a.keygen k]⟩ := by
        unfold DownloadArchive.add
        rw [if_neg h]
      have h2 : List.contains (a.entries ++ [a.keygen k]) (a.keygen k) = true := by
        rw [List.contains, List.elem_iff]
        simp
      rw [ha]
      show (if List.contains (a.entries ++ [a.keygen k]) (a.keygen k) = true
          then (⟨a.keygen, a.entries ++ [a.keygen k]⟩ : DownloadArchive)
          else ⟨a.keygen, (a.entries ++ [a.keygen k]) ++ [a.keygen k]⟩) =
        (⟨a.keygen, a.entries ++ [a.keygen k]⟩ : DownloadArchive)
      rw [if_pos h2]
  · intro g ks k hk
    unfold DownloadArchive.check
    rw [contains_false_iff] at hk ⊢
    intro hmem
    have hkey : (archiveOf g ks).keygen = g := foldl_add_keygen ks ⟨g, []⟩
    rw [hkey] at hmem
    rcases foldl_add_entries_mem ks ⟨g, []⟩ (g k) hmem with h | h
    · simp at h
    · exact hk h

/-- Witness for the hypothesis of `archive_add_check` (the never-added
case at a concrete generator, history and keyword mapping). -/
theorem archive_add_check_witness :
    (([] : List KwDict).map demoKeygen).contains (demoKeygen []) = false ∧
    (archiveOf demoKeygen []).check [] = false :=
  ⟨rfl, archive_add_check.2.2 demoKeygen [] [] rfl⟩

/-- Claim C7: a format spec of the shape `?<before>/<after>/<rest>`
(with `<before>`, `<after>` slash-free) renders a falsy value as the
empty string and a truthy value as `<before>` ++ (value formatted with
`<rest>`) ++ `<after>`; the spec's example `{n:?[/]/}` gives `""` for
`n = 0` and `"[5]"` for `n = 5`. -/
theorem format_field_conditional :
    (∀ (fmt : PyValue → PyStr → Except Exc PyStr) (value : PyValue) (before after rest : PyStr),
      before.contains '/' = false → after.contains '/' = false →
      format_field fmt value ('?' :: before ++ '/' :: after ++ '/' :: rest) =
        if pyFalsy value then .ok []
        else (fmt value rest).map (fun s => before ++ s ++ after)) ∧
    format_field pyBuiltins.format (.int 0) ("?[/]/".data) = .ok [] ∧
    format_field pyBuiltins.format (.int 5) ("?[/]/".data) = .ok ("[5]".data) := by
  refine ⟨?_, rfl, rfl⟩
  intro fmt value before after rest hb ha
  have hb' : ('?' :: before).contains '/' = false := by
    simp only [List.contains, List.elem_cons] at hb ⊢
    simpa using hb
  have e1 : ('?' :: (before ++ '/' :: (after ++ '/' :: rest))) =
      (('?' :: before) ++ '/' :: (after ++ '/' :: rest)) := by simp
  have hsplit : splitSlash2 ('?' :: (before ++ '/' :: (after ++ '/' :: rest))) =
      some ('?' :: before, after, rest) := by
    unfold splitSlash2
    rw [e1, partitionChar_append '/' ('?' :: before) (after ++ '/' :: rest) hb']
    dsimp only
    rw [partitionChar_append '/' after rest ha]
    simp
  by_cases hf : pyFalsy value = true
  · simp [format_field, hf]
  · simp [format_field, hf, hsplit]

/-- Witness for the hypotheses of `format_field_conditional` (slash-free
wrapper parts at the spec's own example). -/
theorem format_field_conditional_witness :
    ("[".data).contains '/' = false ∧ ("]".data).contains '/' = false ∧
    format_field pyBuiltins.format (.int 5)
        ('?' :: "[".data ++ '/' :: "]".data ++ '/' :: ([] : PyStr)) =
      (if pyFalsy (.int 5) then .ok []
       else (pyBuiltins.format (.int 5) ([] : PyStr)).map
         (fun s => "[".data ++ s ++ "]".data)) :=
  ⟨rfl, rfl,
   format_field_conditional.1 pyBuiltins.format (.int 5) ("[".data) ("]".data) [] rfl rfl⟩

theorem vformatItem_plain (B : Builtins) (kwargs : KwDict) (d : PyValue) (f : TField)
    (hc : f.conversion = Option.none) (hs : f.spec = [])
    (hr : f.name.rest = [] ∨ dictGet kwargs f.name.first = Option.none) :
    ∃ out, vformatItem B kwargs d f = .ok out := by
  rcases hobj : dictGet kwargs f.name.first with _ | obj
  · refine ⟨B.pstr d, ?_⟩
    unfold vformatItem get_field
    rw [hobj, hc, hs]
    rfl
  · have hrest : f.name.rest = [] := by
      rcases hr with h | h
      · exact h
      · rw [hobj] at h
        cases h
    refine ⟨B.pstr obj, ?_⟩
    unfold vformatItem get_field
    rw [hobj, hrest, hc, hs]
    rfl

theorem vformatGo_plain_ok (B : Builtins) (kwargs : KwDict) (d : PyValue) :
    ∀ tpl : Template, tpl.all (plainItem kwargs) = true →
    ∃ out, vformatGo B kwargs d tpl = .ok out := by
  intro tpl
  induction tpl with
  | nil => exact fun _ => ⟨[], rfl⟩
  | cons item rest ih =>
    intro hall
    rw [List.all_cons, Bool.and_eq_true] at hall
    obtain ⟨hitem, hrest⟩ := hall
    obtain ⟨tailOut, htail⟩ := ih hrest
    rcases hfield : item.field with _ | f
    · refine ⟨item.literal ++ [] ++ tailOut, ?_⟩
      unfold vformatGo
      rw [hfield, htail]
      rfl
    · unfold plainItem at hitem
      rw [hfield] at hitem
      simp only [Bool.and_eq_true, Option.isNone_iff_eq_none, List.isEmpty_iff,
        Bool.or_eq_true] at hitem
      obtain ⟨⟨hc, hs⟩, hr⟩ := hitem
      have hr' : f.name.rest = [] ∨ dictGet kwargs f.name.first = Option.none := by
        rcases hr with h | h
        · exact Or.inl (by simpa using h)
        · exact Or.inr (by simpa using h)
      by_cases htru : fieldNameTruthy f.name = true
      · obtain ⟨hout, hitemOk⟩ := vformatItem_plain B kwargs d f hc hs hr'
        refine ⟨item.literal ++ hout ++ tailOut, ?_⟩
        unfold vformatGo
        rw [hfield]
        show (do
          let head ← if fieldNameTruthy f.name then vformatItem B kwargs d f
            else pure ([] : PyStr)
          let tail ← vformatGo B kwargs d rest
          (.ok (item.literal ++ head ++ tail) : Except Exc PyStr)) = _
        rw [if_pos htru, hitemOk, htail]
        rfl
      · refine ⟨item.literal ++ [] ++ tailOut, ?_⟩
        unfold vformatGo
        rw [hfield]
        show (do
          let head ← if fieldNameTruthy f.name then vformatItem B kwargs d f
            else pure ([] : PyStr)
          let tail ← vformatGo B kwargs d rest
          (.ok (item.literal ++ head ++ tail) : Except Exc PyStr)) = _
        rw [if_neg htru, htail]
        rfl

/-- Claim C8: a replacement field whose top-level key is absent from the
keyword mapping resolves to the formatter's configured default value —
never an error — and rendering a template of literals and plain fields
succeeds for every keyword mapping, missing keys included; a concrete
template renders the substituted default into the output. -/
theorem formatter_missing_key_default :
    (∀ (B : Builtins) (f : FieldName) (kwargs : KwDict) (d : PyValue),
      dictGet kwargs f.first = Option.none → get_field B f kwargs d = .ok d) ∧
    (∀ (B : Builtins) (tpl : Template) (kwargs : KwDict) (d : PyValue),
      tpl.all (plainItem kwargs) = true → exceptOk (vformat B tpl kwargs d) = true) ∧
    vformat pyBuiltins [⟨"id = ".data, some ⟨⟨"id".data, []⟩, Option.none, []⟩⟩]
      [] (.str ("missing".data)) = .ok ("id = missing".data) := by
  refine ⟨?_, ?_, rfl⟩
  · intro B f kwargs d h
    unfold get_field
    rw [h]
  · intro B tpl kwargs d hall
    obtain ⟨out, hout⟩ := vformatGo_plain_ok B kwargs d tpl hall
    unfold vformat
    rw [hout]
    rfl

/-- Witness for the hypotheses of `formatter_missing_key_default`
(missing key and all-plain template at concrete inputs). -/
theorem formatter_missing_key_default_witness :
    dictGet [] ("id".data) = Option.none ∧
    get_field pyBuiltins ⟨"id".data, []⟩ [] PyValue.none = .ok PyValue.none ∧
    ([⟨"n:".data, some ⟨⟨"n".data, []⟩, Option.none, []⟩⟩] : Template).all
      (plainItem []) = true ∧
    exceptOk (vformat pyBuiltins
      [⟨"n:".data, some ⟨⟨"n".data, []⟩, Option.none, []⟩⟩] [] PyValue.none) = true :=
  ⟨rfl, formatter_missing_key_default.1 pyBuiltins ⟨"id".data, []⟩ [] PyValue.none rfl,
   rfl, formatter_missing_key_default.2.1 pyBuiltins
     [⟨"n:".data, some ⟨⟨"n".data, []⟩, Option.none, []⟩⟩] [] PyValue.none rfl⟩

theorem bencode_zero : bencode 0 = [] := by
  rw [bencode]
  rfl

theorem bdecodeGo_append (xs ys : PyStr) : ∀ acc : Nat,
    bdecodeGo acc (xs ++ ys) = (bdecodeGo acc xs).bind (fun a => bdecodeGo a ys) := by
  induction xs with
  | nil => intro acc; rfl
  | cons c cs ih =>
    intro acc
    rw [List.cons_append]
    rcases h : alphabetDigits.findIdx? (fun d => d == c) with _ | i
    · simp [bdecodeGo, h]
    · simp [bdecodeGo, h, ih]

theorem digit_findIdx (m : Nat) (hm : m < 10) :
    alphabetDigits.findIdx? (fun d => d == alphabetDigits.getD m '0') = some m := by
  interval_cases m <;> rfl

theorem bdecodeGo_bencode (n : Nat) : ∀ acc : Nat,
    bdecodeGo acc (bencode n) = some (acc * 10 ^ (bencode n).length + n) := by
  induction n using Nat.strong_induction_on with
  | _ n ih =>
    intro acc
    by_cases h0 : n = 0
    · subst h0
      rw [bencode_zero]
      simp [bdecodeGo]
    · rw [bencode, dif_neg h0]
      rw [bdecodeGo_append]
      rw [ih (n / 10) (Nat.div_lt_self (Nat.pos_of_ne_zero h0) (by norm_num)) acc]
      show bdecodeGo (acc * 10 ^ (bencode (n / 10)).length + n / 10)
        [alphabetDigits.getD (n % 10) '0'] = _
      unfold bdecodeGo
      rw [digit_findIdx (n % 10) (Nat.mod_lt n (by norm_num))]
      unfold bdecodeGo
      rw [List.length_append, List.length_singleton, pow_succ]
      refine congrArg some ?_
      have hdm : n / 10 * 10 + n % 10 = n := by omega
      set L := (bencode (n / 10)).length
      calc (acc * 10 ^ L + n / 10) * 10 + n % 10
          = acc * (10 ^ L * 10) + (n / 10 * 10 + n % 10) := by ring
        _ = acc * (10 ^ L * 10) + n := by rw [hdm]

theorem bencode_eq_nil_iff (v : Nat) : bencode v = [] ↔ v = 0 := by
  constructor
  · intro h
    by_contra hv
    rw [bencode, dif_neg hv] at h
    simp at h
  · intro h
    subst h
    exact bencode_zero

theorem digit_mem_charact (c : Char) (hc : c ∈ alphabetDigits) :
    ∃ i, i < 10 ∧ alphabetDigits.getD i '0' = c ∧
      alphabetDigits.findIdx? (fun d => d == c) = some i := by
  simp only [alphabetDigits, List.mem_cons, List.not_mem_nil, or_false] at hc
  rcases hc with rfl | rfl | rfl | rfl | rfl | rfl | rfl | rfl | rfl | rfl
  · exact ⟨0, by norm_num, rfl, rfl⟩
  · exact ⟨1, by norm_num, rfl, rfl⟩
  · exact ⟨2, by norm_num, rfl, rfl⟩
  · exact ⟨3, by norm_num, rfl, rfl⟩
  · exact ⟨4, by norm_num, rfl, rfl⟩
  · exact ⟨5, by norm_num, rfl, rfl⟩
  · exact ⟨6, by norm_num, rfl, rfl⟩
  · exact ⟨7, by norm_num, rfl, rfl⟩
  · exact ⟨8, by norm_num, rfl, rfl⟩
  · exact ⟨9, by norm_num, rfl, rfl⟩

theorem bdecode_bencode_canonical : ∀ s : PyStr, validDigits s → s.head? ≠ some '0' →
    ∃ v, bdecode s = some v ∧ bencode v = s := by
  intro s
  induction s using List.reverseRecOn with
  | nil =>
    intro _ _
    exact ⟨0, rfl, bencode_zero⟩
  | append_singleton xs c ih =>
    intro hv hh
    have hc : c ∈ alphabetDigits := hv c (by simp)
    obtain ⟨i, hi10, hgd, hfind⟩ := digit_mem_charact c hc
    have hvxs : validDigits xs := fun c' hc' => hv c' (by simp [hc'])
    by_cases hxs : xs = []
    · subst hxs
      have hc0 : c ≠ '0' := by simpa using hh
      have hi0 : i ≠ 0 := by
        rintro rfl
        exact hc0 (by rw [← hgd]; rfl)
      refine ⟨i, ?_, ?_⟩
      · show bdecodeGo 0 [c] = some i
        unfold bdecodeGo
        rw [hfind]
        unfold bdecodeGo
        rw [Nat.zero_mul, Nat.zero_add]
      · rw [bencode, dif_neg hi0]
        rw [Nat.div_eq_of_lt hi10, Nat.mod_eq_of_lt hi10]
        rw [bencode_zero, hgd]
    · have hh' : xs.head? ≠ some '0' := by
        rcases xs with _ | ⟨x, xs'⟩
        · simp at hxs
        · simpa using hh
      obtain ⟨v, hb, he⟩ := ih hvxs hh'
      have hvpos : v ≠ 0 := by
        rintro rfl
        exact hxs (by rw [← he, bencode_zero])
      refine ⟨v * 10 + i, ?_, ?_⟩
      · show bdecodeGo 0 (xs ++ [c]) = some (v * 10 + i)
        rw [bdecodeGo_append]
        show (bdecode xs).bind (fun a => bdecodeGo a [c]) = _
        rw [hb]
        show bdecodeGo v [c] = _
        unfold bdecodeGo
        rw [hfind]
        rfl
      · have hne : v * 10 + i ≠ 0 := by omega
        rw [bencode, dif_neg hne]
        have hdiv : (v * 10 + i) / 10 = v := by omega
        have hmod : (v * 10 + i) % 10 = i := by omega
        rw [hdiv, hmod, he, hgd]

/-- Claim C4 (counterexample): `"0"` is a base-restricted string over the
decimal alphabet, yet `bencode(bdecode("0"))` is `""`, not `"0"` — the
round trip fails on encodings with leading zeros because the `while num`
loop of `bencode` emits no digit for 0. -/
theorem bencode_bdecode_counterexample :
    validDigits ("0".data) ∧ (bdecode ("0".data)).map bencode ≠ some ("0".data) := by
  refine ⟨by decide, ?_⟩
  rw [show bdecode ("0".data) = some 0 from rfl]
  rw [Option.map_some', bencode_zero]
  decide

/-- Claim C4 (amended): the round trip `bencode (bdecode s) = s` holds
for every base-restricted string without a leading `'0'` (the canonical
encodings, including the empty string); the integer-side round trip
`bdecode (bencode n) = n` holds for every `n ≥ 0` as claimed. -/
theorem bencode_bdecode_roundtrip :
    (∀ s : PyStr, canonicalDigits s → (bdecode s).map bencode = some s) ∧
    (∀ n : Nat, bdecode (bencode n) = some n) := by
  constructor
  · intro s hs
    obtain ⟨v, hb, he⟩ := bdecode_bencode_canonical s hs.1 hs.2
    rw [hb, Option.map_some', he]
  · intro n
    show bdecodeGo 0 (bencode n) = some n
    rw [bdecodeGo_bencode n 0, Nat.zero_mul, Nat.zero_add]

/-- Witness for the hypotheses of `bencode_bdecode_roundtrip` (a concrete
canonical string and a concrete integer). -/
theorem bencode_bdecode_roundtrip_witness :
    canonicalDigits ("45".data) ∧
    (bdecode ("45".data)).map bencode = some ("45".data) ∧
    bdecode (bencode 45) = some 45 :=
  ⟨by decide, bencode_bdecode_roundtrip.1 ("45".data) (by decide),
   bencode_bdecode_roundtrip.2 45⟩

theorem covers_cons (p : Int × Int) (l : List (Int × Int)) (n : Int) :
    covers (p :: l) n ↔ (p.1 ≤ n ∧ n ≤ p.2) ∨ covers l n := by
  unfold covers
  constructor
  · rintro ⟨r, hr, hn⟩
    rcases List.mem_cons.mp hr with rfl | hr'
    · exact Or.inl hn
    · exact Or.inr ⟨r, hr', hn⟩
  · rintro (hn | ⟨r, hr, hn⟩)
    · exact ⟨p, List.mem_cons_self _ _, hn⟩
    · exact ⟨r, List.mem_cons_of_mem _ hr, hn⟩

theorem covers_perm {l l' : List (Int × Int)} (h : l.Perm l') (n : Int) :
    covers l n ↔ covers l' n := by
  unfold covers
  constructor
  · rintro ⟨r, hr, hn⟩
    exact ⟨r, h.mem_iff.mp hr, hn⟩
  · rintro ⟨r, hr, hn⟩
    exact ⟨r, h.mem_iff.mpr hr, hn⟩

theorem mergeGo_shape : ∀ (rest : List (Int × Int)) (b e : Int),
    ∃ e' tl, mergeGo (b, e) rest = (b, e') :: tl ∧ e ≤ e' := by
  intro rest
  induction rest with
  | nil => exact fun b e => ⟨e, [], rfl, le_refl e⟩
  | cons p rest ih =>
    intro b e
    obtain ⟨l, u⟩ := p
    by_cases h1 : l > e + 1
    · exact ⟨e, mergeGo (l, u) rest, by rw [mergeGo, if_pos h1], le_refl e⟩
    · by_cases h2 : u > e
      · obtain ⟨e', tl, heq, hle⟩ := ih b u
        exact ⟨e', tl, by rw [mergeGo, if_neg h1, if_pos h2, heq], by omega⟩
      · obtain ⟨e', tl, heq, hle⟩ := ih b e
        exact ⟨e', tl, by rw [mergeGo, if_neg h1, if_neg h2, heq], hle⟩

theorem mergeGo_covers : ∀ (rest : List (Int × Int)) (b e : Int),
    List.Pairwise (fun x y : Int × Int => x.1 ≤ y.1) ((b, e) :: rest) →
    ∀ n : Int, covers (mergeGo (b, e) rest) n ↔ (b ≤ n ∧ n ≤ e) ∨ covers rest n := by
  intro rest
  induction rest with
  | nil =>
    intro b e _ n
    rw [mergeGo, covers_cons]
  | cons p rest' ih =>
    intro b e hp n
    obtain ⟨l, u⟩ := p
    rw [List.pairwise_cons] at hp
    obtain ⟨hble, hp'⟩ := hp
    have hbl : b ≤ l := hble (l, u) (List.mem_cons_self _ _)
    have hrest_ge : ∀ a ∈ rest', b ≤ a.1 :=
      fun a ha => le_trans hbl ((List.pairwise_cons.mp hp').1 a ha)
    rw [mergeGo]
    by_cases h1 : l > e + 1
    · rw [if_pos h1, covers_cons, ih l u hp' n, covers_cons]
    · rw [if_neg h1]
      by_cases h2 : u > e
      · rw [if_pos h2]
        have hp2 : List.Pairwise (fun x y : Int × Int => x.1 ≤ y.1) ((b, u) :: rest') :=
          List.pairwise_cons.mpr ⟨hrest_ge, (List.pairwise_cons.mp hp').2⟩
        rw [ih b u hp2 n, covers_cons]
        show (b ≤ n ∧ n ≤ u) ∨ covers rest' n ↔
          (b ≤ n ∧ n ≤ e) ∨ (l ≤ n ∧ n ≤ u) ∨ covers rest' n
        have hiff : (b ≤ n ∧ n ≤ u) ↔ ((b ≤ n ∧ n ≤ e) ∨ (l ≤ n ∧ n ≤ u)) := by omega
        rw [hiff, or_assoc]
      · rw [if_neg h2]
        have hp3 : List.Pairwise (fun x y : Int × Int => x.1 ≤ y.1) ((b, e) :: rest') :=
          List.pairwise_cons.mpr ⟨hrest_ge, (List.pairwise_cons.mp hp').2⟩
        rw [ih b e hp3 n, covers_cons]
        show (b ≤ n ∧ n ≤ e) ∨ covers rest' n ↔
          (b ≤ n ∧ n ≤ e) ∨ (l ≤ n ∧ n ≤ u) ∨ covers rest' n
        have himp : (l ≤ n ∧ n ≤ u) → (b ≤ n ∧ n ≤ e) := by omega
        tauto

theorem mergeGo_gap : ∀ (rest : List (Int × Int)) (b e : Int),
    List.Pairwise (fun x y : Int × Int => x.1 ≤ y.1) ((b, e) :: rest) →
    (∀ p ∈ rest, p.1 ≤ p.2) → b ≤ e →
    List.Chain' (fun x y : Int × Int => x.2 + 1 < y.1) (mergeGo (b, e) rest) ∧
    ∀ r ∈ mergeGo (b, e) rest, r.1 ≤ r.2 := by
  intro rest
  induction rest with
  | nil =>
    intro b e _ _ hbe
    refine ⟨by rw [mergeGo]; exact List.chain'_singleton _, ?_⟩
    intro r hr
    rw [mergeGo] at hr
    rcases List.mem_singleton.mp hr with rfl
    exact hbe
  | cons p rest' ih =>
    intro b e hp hwf hbe
    obtain ⟨l, u⟩ := p
    rw [List.pairwise_cons] at hp
    obtain ⟨hble, hp'⟩ := hp
    have hbl : b ≤ l := hble (l, u) (List.mem_cons_self _ _)
    have hlu : l ≤ u := hwf (l, u) (List.mem_cons_self _ _)
    have hwf' : ∀ q ∈ rest', q.1 ≤ q.2 := fun q hq => hwf q (List.mem_cons_of_mem _ hq)
    have hrest_ge : ∀ a ∈ rest', b ≤ a.1 :=
      fun a ha => le_trans hbl ((List.pairwise_cons.mp hp').1 a ha)
    rw [mergeGo]
    by_cases h1 : l > e + 1
    · rw [if_pos h1]
      obtain ⟨hchain, hmem⟩ := ih l u hp' hwf' hlu
      obtain ⟨e', tl, heq, hle⟩ := mergeGo_shape rest' l u
      constructor
      · rw [List.chain'_cons']
        refine ⟨?_, hchain⟩
        intro y hy
        rw [heq] at hy
        simp only [List.head?_cons, Option.mem_def, Option.some_inj] at hy
        subst hy
        show e + 1 < l
        omega
      · intro r hr
        rcases List.mem_cons.mp hr with rfl | hr'
        · exact hbe
        · exact hmem r hr'
    · rw [if_neg h1]
      by_cases h2 : u > e
      · rw [if_pos h2]
        have hp2 : List.Pairwise (fun x y : Int × Int => x.1 ≤ y.1) ((b, u) :: rest') :=
          List.pairwise_cons.mpr ⟨hrest_ge, (List.pairwise_cons.mp hp').2⟩
        exact ih b u hp2 hwf' (by omega)
      · rw [if_neg h2]
        have hp3 : List.Pairwise (fun x y : Int × Int => x.1 ≤ y.1) ((b, e) :: rest') :=
          List.pairwise_cons.mpr ⟨hrest_ge, (List.pairwise_cons.mp hp').2⟩
        exact ih b e hp3 hwf' hbe

theorem optimize_range_spec (ranges : List (Int × Int)) (hwf : wfRanges ranges) :
    OptimizeSpec ranges := by
  unfold OptimizeSpec gapSeparated coversSame
  unfold optimize_range
  by_cases hlen : ranges.length ≤ 1
  · rw [if_pos hlen]
    refine ⟨fun n => Iff.rfl, ?_, hwf⟩
    rcases ranges with _ | ⟨r, _ | ⟨r2, rest⟩⟩
    · exact List.chain'_nil
    · exact List.chain'_singleton _
    · simp at hlen
  · rw [if_neg hlen]
    have hperm : (sortRanges ranges).Perm ranges := List.perm_insertionSort rangeLE ranges
    have hsorted : List.Pairwise rangeLE (sortRanges ranges) :=
      List.sorted_insertionSort rangeLE ranges
    cases hs : sortRanges ranges with
    | nil =>
      exfalso
      have hlength := hperm.length_eq
      rw [hs] at hlength
      simp only [List.length_nil] at hlength
      omega
    | cons r rest =>
      obtain ⟨b, e⟩ := r
      rw [hs] at hperm hsorted
      have hfst : List.Pairwise (fun x y : Int × Int => x.1 ≤ y.1) ((b, e) :: rest) :=
        hsorted.imp (fun hab => by unfold rangeLE at hab; omega)
      have hwfs : ∀ p ∈ (b, e) :: rest, p.1 ≤ p.2 := fun p hp => hwf p (hperm.subset hp)
      have hwfhead : b ≤ e := hwfs (b, e) (List.mem_cons_self _ _)
      have hwftail : ∀ p ∈ rest, p.1 ≤ p.2 := fun p hp => hwfs p (List.mem_cons_of_mem _ hp)
      obtain ⟨hchain, hmem⟩ := mergeGo_gap rest b e hfst hwftail hwfhead
      refine ⟨?_, hchain, hmem⟩
      intro n
      rw [mergeGo_covers rest b e hfst n, ← covers_perm hperm n, covers_cons]

/-- Claim C6: on every list of (well-formed) closed integer intervals,
`optimize_range` returns intervals covering exactly the same set of
integers, pairwise disjoint and non-adjacent (gap ≥ 2, hence sorted and
minimal), each well-formed; and the spec's two examples evaluate exactly
as stated. -/
theorem optimize_range_correct :
    (∀ ranges : List (Int × Int), wfRanges ranges → OptimizeSpec ranges) ∧
    optimize_range [(2, 4), (4, 6), (5, 8)] = [(2, 8)] ∧
    optimize_range [(1, 1), (2, 2), (3, 6), (8, 9)] = [(1, 6), (8, 9)] :=
  ⟨optimize_range_spec, by decide, by decide⟩

/-- Witness for the hypothesis of `optimize_range_correct` (well-formed
intervals at the spec's first example). -/
theorem optimize_range_correct_witness :
    wfRanges [(2, 4), (4, 6), (5, 8)] ∧ OptimizeSpec [(2, 4), (4, 6), (5, 8)] :=
  ⟨by decide, optimize_range_correct.1 [(2, 4), (4, 6), (5, 8)] (by decide)⟩

/-- Claim C2 (counterexample): in a state whose extension is not yet
known, with a filesystem on which every path — in particular the state's
real path — exists and no archive, `exists` returns false although the
real path exists on disk: the disk test of util.py line 395 is guarded by
`self.has_extension`, so the claimed "true iff on disk or in archive"
fails. -/
theorem pathformat_exists_counterexample :
    PathFormat.exists pyBuiltins (fun _ => true) pathStateNoExt Option.none =
      .ok (false, pathStateNoExt) ∧
    (fun _ : PyStr => true) pathStateNoExt.realpath = true :=
  ⟨rfl, rfl⟩

/-- Claim C2 (amended): under the default plain-skip policy (`skip` truthy,
no abort/exit exception) and a filename template that renders, `exists`
raises nothing and returns true iff (the extension is known and the real
path exists on disk) or the given archive contains the key rendered from
the current keywords. -/
theorem pathformat_exists_amended :
    ∀ (B : Builtins) (fs : PyStr → Bool) (st : PathFormat)
      (archive : Option DownloadArchive),
      st.skipEnabled = true → st.skipexc = Option.none → rebuildOk B st = true →
      existsReturns B fs st archive
        ((st.has_extension && fs st.realpath) || archiveHit archive st.keywords) := by
  intro B fs st archive hskip hexc hreb
  unfold existsReturns PathFormat.exists
  rw [hskip]
  rw [if_neg (by simp : ¬((!true) = true))]
  by_cases hc : ((st.has_extension && fs st.realpath) || archiveHit archive st.keywords) = true
  · rw [if_pos hc, hexc]
    by_cases hhe : st.has_extension = true
    · rw [if_pos hhe]
      exact ⟨st, by rw [hc]⟩
    · rw [if_neg hhe]
      unfold rebuildOk at hreb
      rcases hset : PathFormat.set_extension B st [] true with e | st2
      · rw [hset] at hreb
        cases hreb
      · rw [hset] at hreb
        dsimp only at hreb ⊢
        have hpath : st2.path ≠ [] := by
          intro hnil
          rw [hnil] at hreb
          simp at hreb
        have hlast : ∃ c, st2.path.getLast? = some c := by
          rcases hp : st2.path.getLast? with _ | c
          · rw [List.getLast?_eq_none_iff] at hp
            exact absurd hp hpath
          · exact ⟨c, rfl⟩
        obtain ⟨c, hcl⟩ := hlast
        rw [hcl]
        dsimp only
        by_cases hdot : c = '.'
        · rw [if_pos hdot]
          exact ⟨{ st2 with path := st2.path.dropLast }, by rw [hc]⟩
        · rw [if_neg hdot]
          exact ⟨st2, by rw [hc]⟩
  · rw [if_neg hc]
    refine ⟨st, ?_⟩
    have hfalse : ((st.has_extension && fs st.realpath) || archiveHit archive st.keywords)
        = false := by
      simpa using hc
    rw [hfalse]

/-- Witness for the hypotheses of `pathformat_exists_amended` (the
default plain-skip policy on a concrete fully-built state). -/
theorem pathformat_exists_amended_witness :
    pathStateExt.skipEnabled = true ∧ pathStateExt.skipexc = Option.none ∧
    rebuildOk pyBuiltins pathStateExt = true ∧
    existsReturns pyBuiltins (fun _ => true) pathStateExt Option.none
      ((pathStateExt.has_extension && (fun _ : PyStr => true) pathStateExt.realpath)
        || archiveHit Option.none pathStateExt.keywords) :=
  ⟨rfl, rfl, rfl,
   pathformat_exists_amended pyBuiltins (fun _ => true) pathStateExt Option.none rfl rfl rfl⟩
